import Mathlib

/-!
Verification of the executorch lowering / packaging layer.

Shallow embedding of:
* `backends/vulkan/serialization/vulkan_graph_serialize.py`
  (the `VulkanDelegateHeader` dataclass: `from_bytes`, `is_valid`, `to_bytes`);
* the view-elision pass, memory planner and execution-plan emitter described
  in the specification (their implementation is exercised by
  `exir/tests/test_remove_view_copy.py`).

Bytes are modelled as `List Nat` (each element a byte value), Python slices
`data[a:b]` as `(data.drop a).take (b - a)`, `int.from_bytes(..., "little")`
as `leDecode`, and `int.to_bytes(w, "little")` (which raises `OverflowError`
on a negative or too-large value) as an `Option`-returning encoder.
-/

namespace HeaderV

/-- Little-endian decode of a byte list, as Python `int.from_bytes(data, "little")`. -/
def leDecode : List Nat → Nat
  | [] => 0
  | b :: bs => b + 256 * leDecode bs

/-- Little-endian encode of `n` into exactly `w` bytes (assuming `n < 256 ^ w`). -/
def leEncode : Nat → Nat → List Nat
  | _, 0 => []
  | n, w + 1 => (n % 256) :: leEncode (n / 256) w

/-- Python `n.to_bytes(w, byteorder="little")`: fails (OverflowError) when `n`
is negative or does not fit in `w` bytes. -/
def intToBytes (n : Int) (w : Nat) : Option (List Nat) :=
  if 0 ≤ n ∧ n < (256 : Int) ^ w then some (leEncode n.toNat w) else none

/-- Python slice `data[a:b]`. -/
def slice (data : List Nat) (a b : Nat) : List Nat :=
  (data.drop a).take (b - a)

/-- The `VulkanDelegateHeader` dataclass: four (unbounded, signed) integer
fields, as Python `int`s. -/
structure VulkanDelegateHeader where
  flatbuffer_offset : Int
  flatbuffer_size : Int
  bytes_offset : Int
  bytes_size : Int
deriving Repr, DecidableEq

/-- `VulkanDelegateHeader.EXPECTED_MAGIC = b"VH00"`. -/
def EXPECTED_MAGIC : List Nat := [86, 72, 48, 48]

/-- `VulkanDelegateHeader.EXPECTED_LENGTH = 30`. -/
def EXPECTED_LENGTH : Nat := 30

/-- `VulkanDelegateHeader.from_bytes`: rejects a buffer longer than 30 bytes,
a magic slice `data[4:8]` different from `b"VH00"`, and a length field
`data[8:10]` not decoding to 30; otherwise decodes the four fields from
`data[10:14]`, `data[14:18]`, `data[18:22]`, `data[22:30]` (a short slice
decodes with the absent high bytes as zero, as in Python). -/
def from_bytes (data : List Nat) : Option VulkanDelegateHeader :=
  if data.length > EXPECTED_LENGTH then none
  else if slice data 4 8 ≠ EXPECTED_MAGIC then none
  else if leDecode (slice data 8 10) ≠ EXPECTED_LENGTH then none
  else some
    { flatbuffer_offset := (leDecode (slice data 10 14) : Int)
      flatbuffer_size := (leDecode (slice data 14 18) : Int)
      bytes_offset := (leDecode (slice data 18 22) : Int)
      bytes_size := (leDecode (slice data 22 30) : Int) }

/-- `VulkanDelegateHeader.is_valid`. -/
def is_valid (h : VulkanDelegateHeader) : Bool :=
  if h.flatbuffer_size ≤ 0 then false
  else if h.bytes_offset < h.flatbuffer_offset + h.flatbuffer_size then false
  else if h.bytes_size < 0 then false
  else true

/-- `VulkanDelegateHeader.to_bytes`: fails when `is_valid` is false, then
concatenates 4 zero padding bytes, the magic, the 2-byte header length and
the four little-endian encoded fields (4, 4, 4 and 8 bytes wide); any field
that is negative or too wide makes the corresponding `int.to_bytes` raise,
so the whole call fails. -/
def to_bytes (h : VulkanDelegateHeader) : Option (List Nat) :=
  if ¬ is_valid h then none
  else
    match intToBytes h.flatbuffer_offset 4, intToBytes h.flatbuffer_size 4,
          intToBytes h.bytes_offset 4, intToBytes h.bytes_size 8 with
    | some fo, some fs, some bo, some bs =>
        some ([0, 0, 0, 0] ++ EXPECTED_MAGIC ++ leEncode EXPECTED_LENGTH 2
              ++ fo ++ fs ++ bo ++ bs)
    | _, _, _, _ => none

end HeaderV

namespace SpecModel

/-- Modelled from the spec: the per-value `TensorSpec` of §3 (the
implementation of `exir`'s spec/pass/planner layer is not part of the
sources, only its test is): shape, element width, `const`, optional
`storage` (identifier of a constant byte range), optional pooled
`mem_id`/`mem_offset`, and a computed inclusive `lifetime`. -/
structure TensorSpec where
  shape : List Nat
  dtypeSize : Nat
  const : Bool
  storage : Option Nat
  mem_id : Option Nat
  mem_offset : Option Nat
  lifetime : Nat × Nat
deriving Repr, DecidableEq

/-- Modelled from the spec: a graph node is either a non-view producer or a
view of an earlier node. -/
inductive NodeKind where
  | prim
  | view (base : Nat)
deriving Repr, DecidableEq

/-- A graph node with its pre-pass tensor spec. -/
structure GNode where
  kind : NodeKind
  spec : TensorSpec
deriving Repr, DecidableEq

def baseOf (g : List GNode) (i : Nat) : Option Nat :=
  match g[i]? with
  | some ⟨.view b, _⟩ => some b
  | _ => none

def isView (g : List GNode) (i : Nat) : Bool :=
  (baseOf g i).isSome

/-- Well-formed graph: every view's base is an earlier node. -/
def wfG (g : List GNode) : Bool :=
  (List.range g.length).all fun i =>
    match baseOf g i with
    | some b => decide (b < i)
    | none => true

/-- Transitive resolution of a view chain, with explicit fuel. -/
def resolveFuel (g : List GNode) : Nat → Nat → Nat
  | 0, i => i
  | fuel + 1, i =>
    match baseOf g i with
    | some b => resolveFuel g fuel b
    | none => i

/-- Modelled from the spec (§4.1): resolve a view node transitively to its
ultimate non-view ancestor. -/
def resolve (g : List GNode) (i : Nat) : Nat := resolveFuel g (i + 1) i

/-- Pre-elision last-use index of a node. -/
def origLast (g : List GNode) (i : Nat) : Nat :=
  (g[i]?.map fun n => n.spec.lifetime.2).getD 0

/-- Extend the lifetime upper bound of the spec at index `b` to `last`. -/
def extendAt (specs : List TensorSpec) (b last : Nat) : List TensorSpec :=
  match specs[b]? with
  | some s => specs.set b { s with lifetime := (s.lifetime.1, max s.lifetime.2 last) }
  | none => specs

def elideStep (g : List GNode) (specs : List TensorSpec) (i : Nat) :
    List TensorSpec :=
  match baseOf g i with
  | some _ => extendAt specs (resolve g i) (origLast g i)
  | none => specs

def elideGo (g : List GNode) : List Nat → List TensorSpec → List TensorSpec
  | [], specs => specs
  | i :: rest, specs => elideGo g rest (elideStep g specs i)

/-- Modelled from the spec (§4.1 view-elision pass): traverse the nodes in
program order; for each view node resolve its base transitively to its
non-view ancestor and extend the ancestor's lifetime upper bound to the
view's last-use index. A view keeps no spec of its own afterwards: spec
lookup goes through `resolve`. -/
def elide (g : List GNode) : List TensorSpec :=
  elideGo g (List.range g.length) (g.map fun n => n.spec)

/-- Byte size of a value: element count times element width. -/
def sizeBytes (s : TensorSpec) : Nat := s.shape.prod * s.dtypeSize

/-- Round `n` up to a multiple of the alignment `a`. -/
def alignUp (n a : Nat) : Nat := (n + a - 1) / a * a

def planStep (g : List GNode) (st : Nat × List TensorSpec) (i : Nat) :
    Nat × List TensorSpec :=
  match g[i]?, st.2[i]? with
  | some ⟨.prim, _⟩, some s =>
      if s.const then st
      else (st.1 + alignUp (sizeBytes s) 16,
            st.2.set i { s with mem_id := some 1, mem_offset := some st.1 })
  | _, _ => st

def planGo (g : List GNode) : List Nat → Nat × List TensorSpec →
    Nat × List TensorSpec
  | [], st => st
  | i :: rest, st => planGo g rest (planStep g st i)

/-- Modelled from the spec (§4.2, the naive/linear pluggable policy):
process values in program order and give every non-constant non-view value
a pooled `(mem_id, mem_offset)`, placing values end-to-end at 16-byte
alignment; constants and aliases are left to their `storage` owner. -/
def plan (g : List GNode) (specs : List TensorSpec) : List TensorSpec :=
  (planGo g (List.range g.length) (0, specs)).2

/-- Spec of node `i` after elision and planning: an alias borrows the spec
of its resolved base wholesale. -/
def specAfter (g : List GNode) (i : Nat) : Option TensorSpec :=
  (plan g (elide g))[resolve g i]?

/-- Does node `i` denote a view resolving to base `b`? -/
def viewsTo (g : List GNode) (b i : Nat) : Bool :=
  isView g i && (resolve g i == b)

/-- Base spec of the witness graph: a non-constant intermediate. -/
def sBEx : TensorSpec :=
  { shape := [5, 6], dtypeSize := 4, const := false, storage := none,
    mem_id := none, mem_offset := none, lifetime := (0, 1) }

/-- View spec of the witness graph. -/
def sVEx : TensorSpec :=
  { shape := [6, 5], dtypeSize := 4, const := false, storage := none,
    mem_id := none, mem_offset := none, lifetime := (1, 3) }

/-- Witness graph: a producer and one view of it. -/
def gEx : List GNode := [⟨.prim, sBEx⟩, ⟨.view 0, sVEx⟩]

end SpecModel

namespace ExecM

/-- Modelled from the spec (§2, §4.3): a value-producing graph node. `input`
is an external placeholder, `constant` a parameter embedded in the artifact,
`view` a pure reshape of an earlier node (same flat contiguous data), `mul`
an elementwise multiply of two earlier nodes. -/
inductive VNode where
  | input (k : Nat)
  | constant (data : List Int)
  | view (b : Nat)
  | mul (a b : Nat)
deriving Repr, DecidableEq

/-- Modelled from the spec (§4.3): the operator identity emitted for an
executable node; placeholders and constants emit none. -/
def opName : VNode → Option String
  | .view _ => some "executorch_prim::et_view"
  | .mul _ _ => some "aten::mul"
  | _ => none

/-- One deduplication step: an already-seen operator reuses its index, a new
operator is appended to the table at the next index. -/
def dedupStep (st : List String × List Nat) (op : String) :
    List String × List Nat :=
  match st.1.findIdx? (· == op) with
  | some idx => (st.1, st.2 ++ [idx])
  | none => (st.1 ++ [op], st.2 ++ [st.1.length])

/-- Modelled from the spec (§4.3): populate the operator table in strict
first-seen order over the executable nodes in program order, returning the
table and the per-instruction `op_index` list. -/
def emitOperators (g : List VNode) : List String × List Nat :=
  (g.filterMap opName).foldl dedupStep ([], [])

/-- The §8 scenario: a parameter of shape `[5, 6]` viewed to `[6, 5]`,
elementwise-multiplied with an input viewed to `[6, 5]`, the result viewed
to `[30]` (views carry flat contiguous data, so only the base index
matters here). -/
def scenarioGraph (p : List Int) : List VNode :=
  [.constant p, .input 0, .view 0, .view 1, .mul 2 3, .view 4]

/-- Value of one node given the already-computed environment. -/
def denoteNode (inputs : List (List Int)) (env : List (List Int)) :
    VNode → List Int
  | .input k => inputs.getD k []
  | .constant d => d
  | .view b => env.getD b []
  | .mul a b => List.zipWith (· * ·) (env.getD a []) (env.getD b [])

/-- Direct evaluation of the first `m` nodes of the un-elided, un-planned
graph, in program order. -/
def denoteUpTo (g : List VNode) (inputs : List (List Int)) :
    Nat → List (List Int)
  | 0 => []
  | i + 1 =>
    let env := denoteUpTo g inputs i
    env ++ [denoteNode inputs env (g.getD i (.input 0))]

/-- Reference value of node `i` in the original graph. -/
def denoteAt (g : List VNode) (inputs : List (List Int)) (i : Nat) :
    List Int :=
  (denoteUpTo g inputs (i + 1)).getD i []

/-- Statically computed element counts of the first `m` nodes. -/
def sizesUpTo (g : List VNode) (inputs : List (List Int)) : Nat → List Nat
  | 0 => []
  | i + 1 =>
    let szs := sizesUpTo g inputs i
    szs ++ [match g.getD i (.input 0) with
      | .input k => (inputs.getD k []).length
      | .constant d => d.length
      | .view b => szs.getD b 0
      | .mul a _ => szs.getD a 0]

/-- Static element count of node `i`. -/
def sizeAt (g : List VNode) (inputs : List (List Int)) (i : Nat) : Nat :=
  (sizesUpTo g inputs (i + 1)).getD i 0

/-- Is node `i` a multiply (the only pooled producer in this model)? -/
def isMul (g : List VNode) (i : Nat) : Bool :=
  match g[i]? with
  | some (.mul _ _) => true
  | _ => false

/-- Modelled from the spec (§4.2, naive/linear policy): pool offset of node
`i`, placing the pooled values end-to-end in program order. -/
def poolOff (g : List VNode) (inputs : List (List Int)) (i : Nat) : Nat :=
  (((List.range i).filter (isMul g)).map (sizeAt g inputs)).sum

/-- Total size of the planned pool. -/
def poolSize (g : List VNode) (inputs : List (List Int)) : Nat :=
  poolOff g inputs g.length

/-- Base of a view node, if any. -/
def baseV (g : List VNode) (i : Nat) : Option Nat :=
  match g[i]? with
  | some (.view b) => some b
  | _ => none

/-- Transitive view resolution with fuel. -/
def resolveVF (g : List VNode) : Nat → Nat → Nat
  | 0, i => i
  | fuel + 1, i =>
    match baseV g i with
    | some b => resolveVF g fuel b
    | none => i

/-- Transitive resolution of a view chain to its non-view ancestor. -/
def resolveV (g : List VNode) (i : Nat) : Nat := resolveVF g (i + 1) i

/-- Well-formed graph: views and multiplies reference earlier nodes only and
multiply operands have equal static sizes. -/
def wfV (g : List VNode) (inputs : List (List Int)) : Bool :=
  (List.range g.length).all fun i =>
    match g[i]? with
    | some (.view b) => decide (b < i)
    | some (.mul a b) => decide (a < i) && decide (b < i) &&
        (sizeAt g inputs a == sizeAt g inputs b)
    | _ => true

/-- A runtime storage location: an external input, constant data embedded in
the artifact, or a pooled region. -/
inductive Loc where
  | inp (k : Nat)
  | cst (d : List Int)
  | pool (off len : Nat)
deriving Repr, DecidableEq

/-- Planned location of node `i`: an alias group shares the location of its
resolved base. -/
def locAt (g : List VNode) (inputs : List (List Int)) (i : Nat) : Loc :=
  match g[resolveV g i]? with
  | some (.input k) => .inp k
  | some (.constant d) => .cst d
  | some (.mul _ _) => .pool (poolOff g inputs (resolveV g i))
      (sizeAt g inputs (resolveV g i))
  | _ => .inp 0

/-- Read the flat data at a location. -/
def readLoc (inputs : List (List Int)) (pool : List Int) : Loc → List Int
  | .inp k => inputs.getD k []
  | .cst d => d
  | .pool off len => (pool.drop off).take len

/-- Overwrite the pool region starting at `off` with `v`. -/
def writeSlice (pool : List Int) (off : Nat) (v : List Int) : List Int :=
  pool.take off ++ (v ++ pool.drop (off + v.length))

/-- An instruction of the linear chain: a lightweight `et_view` reinterpret
(no data movement) or a multiply writing a pooled region. -/
inductive Instr where
  | etView (src dst : Loc)
  | opMul (a b : Loc) (off len : Nat)
deriving Repr, DecidableEq

/-- Instructions emitted for node `i`: one per executable node, none for
placeholders and constants. -/
def instrOf (g : List VNode) (inputs : List (List Int)) (i : Nat) :
    List Instr :=
  match g[i]? with
  | some (.view b) => [.etView (locAt g inputs b) (locAt g inputs i)]
  | some (.mul a b) => [.opMul (locAt g inputs a) (locAt g inputs b)
      (poolOff g inputs i) (sizeAt g inputs i)]
  | _ => []

/-- The instruction chain of the first `m` nodes. -/
def chainUpTo (g : List VNode) (inputs : List (List Int)) (m : Nat) :
    List Instr :=
  ((List.range m).map (instrOf g inputs)).flatten

/-- Modelled from the spec (§4.3): the full compiled instruction chain after
view elision and memory planning. -/
def compileInstrs (g : List VNode) (inputs : List (List Int)) : List Instr :=
  chainUpTo g inputs g.length

/-- Execute one instruction on the pool: `et_view` only reinterprets and
moves no data, `opMul` reads its operands and writes its pooled region. -/
def execInstr (inputs : List (List Int)) (pool : List Int) :
    Instr → List Int
  | .etView _ _ => pool
  | .opMul la lb off _ => writeSlice pool off
      (List.zipWith (· * ·) (readLoc inputs pool la) (readLoc inputs pool lb))

/-- Execute an instruction chain from a starting pool. -/
def execChain (inputs : List (List Int)) (pool : List Int)
    (instrs : List Instr) : List Int :=
  instrs.foldl (execInstr inputs) pool

/-- The zero-initialised planned pool. -/
def initPool (g : List VNode) (inputs : List (List Int)) : List Int :=
  List.replicate (poolSize g inputs) 0

/-- Output of executing the compiled chain: the data at the planned location
of the output node. -/
def execOutput (g : List VNode) (inputs : List (List Int)) (out : Nat) :
    List Int :=
  readLoc inputs (execChain inputs (initPool g inputs) (compileInstrs g inputs))
    (locAt g inputs out)

end ExecM

namespace HeaderV

theorem leEncode_length (n w : Nat) : (leEncode n w).length = w := by
  induction w generalizing n with
  | zero => rfl
  | succ k ih => simp [leEncode, ih]

theorem leDecode_leEncode (n w : Nat) (h : n < 256 ^ w) :
    leDecode (leEncode n w) = n := by
  induction w generalizing n with
  | zero => simp at h; simp [leEncode, leDecode, h]
  | succ k ih =>
    have hdiv : n / 256 < 256 ^ k := by
      rw [Nat.div_lt_iff_lt_mul (by norm_num)]
      calc n < 256 ^ (k + 1) := h
        _ = 256 ^ k * 256 := by ring
    simp only [leEncode, leDecode, ih (n / 256) hdiv]
    omega

theorem slice_middle (pre mid post : List Nat) (a b : Nat)
    (ha : pre.length = a) (hb : b = a + mid.length) :
    slice (pre ++ (mid ++ post)) a b = mid := by
  subst ha hb
  simp [slice, List.drop_append]

theorem intToBytes_some (n : Int) (w : Nat) (bs : List Nat)
    (h : intToBytes n w = some bs) :
    0 ≤ n ∧ n < (256 : Int) ^ w ∧ bs = leEncode n.toNat w := by
  unfold intToBytes at h
  split at h
  · next hr => exact ⟨hr.1, hr.2, (Option.some_inj.mp h).symm⟩
  · exact Option.noConfusion h

/-- Layout of a successful `to_bytes`: the buffer is the concatenation of the
zero padding, the magic, the encoded length 30 and the four encoded fields,
and every field is in range of its width. -/
theorem to_bytes_some (h : VulkanDelegateHeader) (b : List Nat)
    (hb : to_bytes h = some b) :
    is_valid h = true ∧
    (0 ≤ h.flatbuffer_offset ∧ h.flatbuffer_offset < (256 : Int) ^ 4) ∧
    (0 ≤ h.flatbuffer_size ∧ h.flatbuffer_size < (256 : Int) ^ 4) ∧
    (0 ≤ h.bytes_offset ∧ h.bytes_offset < (256 : Int) ^ 4) ∧
    (0 ≤ h.bytes_size ∧ h.bytes_size < (256 : Int) ^ 8) ∧
    b = [0, 0, 0, 0] ++ EXPECTED_MAGIC ++ leEncode EXPECTED_LENGTH 2
        ++ leEncode h.flatbuffer_offset.toNat 4
        ++ leEncode h.flatbuffer_size.toNat 4
        ++ leEncode h.bytes_offset.toNat 4
        ++ leEncode h.bytes_size.toNat 8 := by
  unfold to_bytes at hb
  split at hb
  · exact Option.noConfusion hb
  next hvalid =>
  split at hb
  next fo fs bo bs hfo hfs hbo hbs =>
    obtain ⟨h1, h2, h3⟩ := intToBytes_some _ _ _ hfo
    obtain ⟨h4, h5, h6⟩ := intToBytes_some _ _ _ hfs
    obtain ⟨h7, h8, h9⟩ := intToBytes_some _ _ _ hbo
    obtain ⟨h10, h11, h12⟩ := intToBytes_some _ _ _ hbs
    subst h3 h6 h9 h12
    refine ⟨by simpa using hvalid, ⟨h1, h2⟩, ⟨h4, h5⟩, ⟨h7, h8⟩, ⟨h10, h11⟩, ?_⟩
    exact (Option.some_inj.mp hb).symm
  next hno =>
    exact Option.noConfusion hb

/-- Slices of the 30-byte header layout pick out the individual parts. -/
theorem slice_layout (p4 p5 p6 p7 : List Nat)
    (h4 : p4.length = 4) (h5 : p5.length = 4) (h6 : p6.length = 4)
    (h7 : p7.length = 8) :
    slice ([0, 0, 0, 0] ++ EXPECTED_MAGIC ++ leEncode EXPECTED_LENGTH 2
        ++ p4 ++ p5 ++ p6 ++ p7) 4 8 = EXPECTED_MAGIC ∧
    slice ([0, 0, 0, 0] ++ EXPECTED_MAGIC ++ leEncode EXPECTED_LENGTH 2
        ++ p4 ++ p5 ++ p6 ++ p7) 8 10 = leEncode EXPECTED_LENGTH 2 ∧
    slice ([0, 0, 0, 0] ++ EXPECTED_MAGIC ++ leEncode EXPECTED_LENGTH 2
        ++ p4 ++ p5 ++ p6 ++ p7) 10 14 = p4 ∧
    slice ([0, 0, 0, 0] ++ EXPECTED_MAGIC ++ leEncode EXPECTED_LENGTH 2
        ++ p4 ++ p5 ++ p6 ++ p7) 14 18 = p5 ∧
    slice ([0, 0, 0, 0] ++ EXPECTED_MAGIC ++ leEncode EXPECTED_LENGTH 2
        ++ p4 ++ p5 ++ p6 ++ p7) 18 22 = p6 ∧
    slice ([0, 0, 0, 0] ++ EXPECTED_MAGIC ++ leEncode EXPECTED_LENGTH 2
        ++ p4 ++ p5 ++ p6 ++ p7) 22 30 = p7 ∧
    ([0, 0, 0, 0] ++ EXPECTED_MAGIC ++ leEncode EXPECTED_LENGTH 2
        ++ p4 ++ p5 ++ p6 ++ p7).length = 30 := by
  refine ⟨?_, ?_, ?_, ?_, ?_, ?_, ?_⟩
  · exact slice_middle [0, 0, 0, 0] EXPECTED_MAGIC _ 4 8 rfl rfl
  · rw [show [0, 0, 0, 0] ++ EXPECTED_MAGIC ++ leEncode EXPECTED_LENGTH 2
        ++ p4 ++ p5 ++ p6 ++ p7
      = ([0, 0, 0, 0] ++ EXPECTED_MAGIC)
        ++ (leEncode EXPECTED_LENGTH 2 ++ (p4 ++ p5 ++ p6 ++ p7)) by
        simp [List.append_assoc]]
    exact slice_middle _ _ _ 8 10 (by simp [EXPECTED_MAGIC])
      (by simp [leEncode_length])
  · rw [show [0, 0, 0, 0] ++ EXPECTED_MAGIC ++ leEncode EXPECTED_LENGTH 2
        ++ p4 ++ p5 ++ p6 ++ p7
      = ([0, 0, 0, 0] ++ EXPECTED_MAGIC ++ leEncode EXPECTED_LENGTH 2)
        ++ (p4 ++ (p5 ++ p6 ++ p7)) by simp [List.append_assoc]]
    exact slice_middle _ _ _ 10 14
      (by simp [EXPECTED_MAGIC, leEncode_length]) (by omega)
  · rw [show [0, 0, 0, 0] ++ EXPECTED_MAGIC ++ leEncode EXPECTED_LENGTH 2
        ++ p4 ++ p5 ++ p6 ++ p7
      = ([0, 0, 0, 0] ++ EXPECTED_MAGIC ++ leEncode EXPECTED_LENGTH 2 ++ p4)
        ++ (p5 ++ (p6 ++ p7)) by simp [List.append_assoc]]
    exact slice_middle _ _ _ 14 18
      (by simp [EXPECTED_MAGIC, leEncode_length, h4]) (by omega)
  · rw [show [0, 0, 0, 0] ++ EXPECTED_MAGIC ++ leEncode EXPECTED_LENGTH 2
        ++ p4 ++ p5 ++ p6 ++ p7
      = ([0, 0, 0, 0] ++ EXPECTED_MAGIC ++ leEncode EXPECTED_LENGTH 2
          ++ p4 ++ p5) ++ (p6 ++ p7) by simp [List.append_assoc]]
    exact slice_middle _ _ _ 18 22
      (by simp [EXPECTED_MAGIC, leEncode_length, h4, h5]) (by omega)
  · rw [show [0, 0, 0, 0] ++ EXPECTED_MAGIC ++ leEncode EXPECTED_LENGTH 2
        ++ p4 ++ p5 ++ p6 ++ p7
      = ([0, 0, 0, 0] ++ EXPECTED_MAGIC ++ leEncode EXPECTED_LENGTH 2
          ++ p4 ++ p5 ++ p6) ++ (p7 ++ []) by simp [List.append_assoc]]
    exact slice_middle _ _ _ 22 30
      (by simp [EXPECTED_MAGIC, leEncode_length, h4, h5, h6]) (by omega)
  · simp [EXPECTED_MAGIC, leEncode_length, h4, h5, h6, h7]

theorem toNat_lt_pow (n : Int) (w : Nat) (h0 : 0 ≤ n)
    (h1 : n < (256 : Int) ^ w) : n.toNat < 256 ^ w := by
  have h2 : (n.toNat : Int) < ((256 ^ w : Nat) : Int) := by
    rw [Int.toNat_of_nonneg h0]; push_cast; exact h1
  exact_mod_cast h2

/-- C1: for every header `h` on which `to_bytes` succeeds, parsing the
produced 30-byte buffer with `from_bytes` returns a header equal to `h`
in all four fields. -/
theorem header_roundtrip (h : VulkanDelegateHeader) (b : List Nat)
    (hb : to_bytes h = some b) : from_bytes b = some h := by
  obtain ⟨hv, ⟨a0, a1⟩, ⟨c0, c1⟩, ⟨d0, d1⟩, ⟨e0, e1⟩, hlay⟩ := to_bytes_some h b hb
  subst hlay
  obtain ⟨s1, s2, s3, s4, s5, s6, slen⟩ := slice_layout
    (leEncode h.flatbuffer_offset.toNat 4)
    (leEncode h.flatbuffer_size.toNat 4)
    (leEncode h.bytes_offset.toNat 4)
    (leEncode h.bytes_size.toNat 8)
    (leEncode_length _ _) (leEncode_length _ _) (leEncode_length _ _)
    (leEncode_length _ _)
  unfold from_bytes
  rw [if_neg (by rw [slen]; simp [EXPECTED_LENGTH])]
  rw [if_neg (by rw [s1]; simp)]
  rw [if_neg (by
    rw [s2, leDecode_leEncode EXPECTED_LENGTH 2 (by norm_num [EXPECTED_LENGTH])]
    simp)]
  rw [s3, s4, s5, s6]
  rw [leDecode_leEncode _ 4 (toNat_lt_pow _ 4 a0 a1),
      leDecode_leEncode _ 4 (toNat_lt_pow _ 4 c0 c1),
      leDecode_leEncode _ 4 (toNat_lt_pow _ 4 d0 d1),
      leDecode_leEncode _ 8 (toNat_lt_pow _ 8 e0 e1)]
  rw [Option.some_inj]
  cases h
  simp_all [Int.toNat_of_nonneg]

/-- C1 witness: a concrete header that `to_bytes` accepts round-trips. -/
theorem header_roundtrip_witness :
    to_bytes ⟨5, 7, 12, 3⟩ = some
      [0, 0, 0, 0, 86, 72, 48, 48, 30, 0, 5, 0, 0, 0, 7, 0, 0, 0,
       12, 0, 0, 0, 3, 0, 0, 0, 0, 0, 0, 0] ∧
    from_bytes
      [0, 0, 0, 0, 86, 72, 48, 48, 30, 0, 5, 0, 0, 0, 7, 0, 0, 0,
       12, 0, 0, 0, 3, 0, 0, 0, 0, 0, 0, 0] = some ⟨5, 7, 12, 3⟩ :=
  ⟨by decide, header_roundtrip ⟨5, 7, 12, 3⟩ _ (by decide)⟩

theorem from_bytes_magic_none (data : List Nat)
    (hm : slice data 4 8 ≠ EXPECTED_MAGIC) : from_bytes data = none := by
  unfold from_bytes
  by_cases hl : data.length > EXPECTED_LENGTH
  · rw [if_pos hl]
  · rw [if_neg hl, if_pos hm]

theorem from_bytes_hlen_none (data : List Nat)
    (h : leDecode (slice data 8 10) ≠ 30) : from_bytes data = none := by
  unfold from_bytes
  by_cases hl : data.length > EXPECTED_LENGTH
  · rw [if_pos hl]
  · rw [if_neg hl]
    by_cases hm : slice data 4 8 ≠ EXPECTED_MAGIC
    · rw [if_pos hm]
    · rw [if_neg hm, if_pos (by simpa [EXPECTED_LENGTH] using h)]

/-- C2: `from_bytes` rejects every buffer longer than 30 bytes, every buffer
whose slice at offsets 4..7 is not exactly `b"VH00"`, and every buffer whose
little-endian field at offsets 8..9 decodes to a value other than 30; being
`Option`-valued it never partially succeeds. -/
theorem from_bytes_rejects (data : List Nat) :
    (30 < data.length → from_bytes data = none) ∧
    (slice data 4 8 ≠ EXPECTED_MAGIC → from_bytes data = none) ∧
    (leDecode (slice data 8 10) ≠ 30 → from_bytes data = none) := by
  refine ⟨fun h => ?_, from_bytes_magic_none data, from_bytes_hlen_none data⟩
  unfold from_bytes
  rw [if_pos (by simpa [EXPECTED_LENGTH] using h)]

/-- C2 witness: a 31-byte buffer, a wrong-magic buffer and a wrong-length
buffer are all rejected. -/
theorem from_bytes_rejects_witness :
    from_bytes (List.replicate 31 0) = none ∧
    from_bytes [0, 0, 0, 0, 86, 72, 48, 49, 30, 0] = none ∧
    from_bytes [0, 0, 0, 0, 86, 72, 48, 48, 29, 0] = none :=
  ⟨(from_bytes_rejects (List.replicate 31 0)).1 (by decide),
   (from_bytes_rejects _).2.1 (by decide),
   (from_bytes_rejects _).2.2 (by decide)⟩

/-- C3 counterexample: a 10-byte buffer carrying the correct magic and a
header-length field decoding to 30 is parsed by `from_bytes`, returning a
header with all four fields zero-filled, contradicting the claim that every
buffer shorter than 30 bytes is rejected. -/
theorem from_bytes_short_cex :
    ([0, 0, 0, 0, 86, 72, 48, 48, 30, 0] : List Nat).length < 30 ∧
    from_bytes [0, 0, 0, 0, 86, 72, 48, 48, 30, 0] = some ⟨0, 0, 0, 0⟩ := by
  decide

/-- C3 amended: a buffer shorter than 30 bytes is rejected when its magic
slice differs from `b"VH00"` or its header-length field does not decode
to 30; but a short buffer passing both checks is parsed (missing field
bytes decode as zero) rather than rejected. -/
theorem from_bytes_short (data : List Nat) (hlen : data.length < 30) :
    ((slice data 4 8 ≠ EXPECTED_MAGIC ∨ leDecode (slice data 8 10) ≠ 30) →
      from_bytes data = none) ∧
    (slice data 4 8 = EXPECTED_MAGIC → leDecode (slice data 8 10) = 30 →
      (from_bytes data).isSome = true) := by
  constructor
  · rintro (hm | hl)
    · exact from_bytes_magic_none data hm
    · exact from_bytes_hlen_none data hl
  · intro hm hl
    unfold from_bytes
    rw [if_neg (by simp [EXPECTED_LENGTH]; omega),
        if_neg (by simpa using hm),
        if_neg (by simp [EXPECTED_LENGTH, hl])]
    rfl

/-- C3 amended witness: a wrong-magic short buffer is rejected while a
short buffer passing both checks parses. -/
theorem from_bytes_short_witness :
    from_bytes [1, 2, 3] = none ∧
    (from_bytes [0, 0, 0, 0, 86, 72, 48, 48, 30]).isSome = true :=
  ⟨(from_bytes_short [1, 2, 3] (by decide)).1 (Or.inl (by decide)),
   (from_bytes_short _ (by decide)).2 (by decide) (by decide)⟩

/-- C4 counterexample: the header `⟨0, 1, 2^32, 0⟩` satisfies `is_valid`
but `to_bytes` fails on it (the `bytes_offset` does not fit 4 bytes), so
`to_bytes` does not return a buffer for every valid header. -/
theorem to_bytes_layout_cex :
    is_valid ⟨0, 1, 4294967296, 0⟩ = true ∧
    to_bytes ⟨0, 1, 4294967296, 0⟩ = none := by
  decide

/-- C4 amended: `to_bytes` fails whenever `is_valid` is false, and also when
a field is negative or too wide for its encoding; whenever it does return a
buffer (exactly when `is_valid` holds and every field fits its width), the
buffer has exactly 30 bytes, bytes 0..3 zero, bytes 4..7 `b"VH00"`,
bytes 8..9 the little-endian encoding of 30, and the four fields encoded
little-endian at offsets 10..13, 14..17, 18..21 and 22..29. -/
theorem to_bytes_layout (h : VulkanDelegateHeader) :
    (is_valid h = false → to_bytes h = none) ∧
    (∀ b, to_bytes h = some b →
      b.length = 30 ∧
      slice b 0 4 = [0, 0, 0, 0] ∧
      slice b 4 8 = EXPECTED_MAGIC ∧
      leDecode (slice b 8 10) = 30 ∧
      (leDecode (slice b 10 14) : Int) = h.flatbuffer_offset ∧
      (leDecode (slice b 14 18) : Int) = h.flatbuffer_size ∧
      (leDecode (slice b 18 22) : Int) = h.bytes_offset ∧
      (leDecode (slice b 22 30) : Int) = h.bytes_size) ∧
    (is_valid h = true →
      0 ≤ h.flatbuffer_offset → h.flatbuffer_offset < (2 : Int) ^ 32 →
      h.flatbuffer_size < (2 : Int) ^ 32 →
      h.bytes_offset < (2 : Int) ^ 32 → h.bytes_size < (2 : Int) ^ 64 →
      (to_bytes h).isSome = true) := by
  refine ⟨fun hv => ?_, fun b hb => ?_, fun hv a0 a1 c1 d1 e1 => ?_⟩
  · unfold to_bytes
    rw [if_pos (by simp [hv])]
  · obtain ⟨hv, ⟨a0, a1⟩, ⟨c0, c1⟩, ⟨d0, d1⟩, ⟨e0, e1⟩, hlay⟩ :=
      to_bytes_some h b hb
    subst hlay
    obtain ⟨s1, s2, s3, s4, s5, s6, slen⟩ := slice_layout
      (leEncode h.flatbuffer_offset.toNat 4)
      (leEncode h.flatbuffer_size.toNat 4)
      (leEncode h.bytes_offset.toNat 4)
      (leEncode h.bytes_size.toNat 8)
      (leEncode_length _ _) (leEncode_length _ _) (leEncode_length _ _)
      (leEncode_length _ _)
    refine ⟨slen, by simp [slice], s1, ?_, ?_, ?_, ?_, ?_⟩
    · rw [s2, leDecode_leEncode EXPECTED_LENGTH 2
        (by norm_num [EXPECTED_LENGTH])]
      rfl
    · rw [s3, leDecode_leEncode _ 4 (toNat_lt_pow _ 4 a0 a1),
        Int.toNat_of_nonneg a0]
    · rw [s4, leDecode_leEncode _ 4 (toNat_lt_pow _ 4 c0 c1),
        Int.toNat_of_nonneg c0]
    · rw [s5, leDecode_leEncode _ 4 (toNat_lt_pow _ 4 d0 d1),
        Int.toNat_of_nonneg d0]
    · rw [s6, leDecode_leEncode _ 8 (toNat_lt_pow _ 8 e0 e1),
        Int.toNat_of_nonneg e0]
  · have hfs : 0 < h.flatbuffer_size := by
      by_contra hc
      simp [is_valid, not_lt.mp hc] at hv
    have hbo : h.flatbuffer_offset + h.flatbuffer_size ≤ h.bytes_offset := by
      by_contra hc
      simp [is_valid, not_le.mp hc, not_le.mpr hfs] at hv
    have hbs : 0 ≤ h.bytes_size := by
      by_contra hc
      simp [is_valid, not_le.mp hc, not_le.mpr hfs, not_lt.mpr hbo] at hv
    unfold to_bytes
    rw [if_neg (by simp [hv])]
    rw [show intToBytes h.flatbuffer_offset 4
        = some (leEncode h.flatbuffer_offset.toNat 4) from
      if_pos ⟨a0, by norm_num at a1 ⊢; omega⟩]
    rw [show intToBytes h.flatbuffer_size 4
        = some (leEncode h.flatbuffer_size.toNat 4) from
      if_pos ⟨le_of_lt hfs, by norm_num at c1 ⊢; omega⟩]
    rw [show intToBytes h.bytes_offset 4
        = some (leEncode h.bytes_offset.toNat 4) from
      if_pos ⟨by omega, by norm_num at d1 ⊢; omega⟩]
    rw [show intToBytes h.bytes_size 8
        = some (leEncode h.bytes_size.toNat 8) from
      if_pos ⟨hbs, by norm_num at e1 ⊢; omega⟩]
    rfl

/-- C4 amended witness: an invalid header fails, a concrete valid in-range
header yields a buffer whose slices decode to the original fields. -/
theorem to_bytes_layout_witness :
    to_bytes ⟨0, 0, 0, 0⟩ = none ∧
    (to_bytes ⟨5, 7, 12, 3⟩).isSome = true ∧
    (leDecode (slice [0, 0, 0, 0, 86, 72, 48, 48, 30, 0, 5, 0, 0, 0, 7, 0,
      0, 0, 12, 0, 0, 0, 3, 0, 0, 0, 0, 0, 0, 0] 10 14) : Int) = 5 :=
  ⟨(to_bytes_layout ⟨0, 0, 0, 0⟩).1 (by decide),
   (to_bytes_layout ⟨5, 7, 12, 3⟩).2.2 (by decide) (by decide) (by decide)
     (by decide) (by decide) (by decide),
   ((to_bytes_layout ⟨5, 7, 12, 3⟩).2.1 _ (by decide)).2.2.2.2.1⟩

/-- C5: `is_valid` is false when `flatbuffer_size = 0`, false when
`bytes_offset < flatbuffer_offset + flatbuffer_size`, and true at the exact
boundary `bytes_offset = flatbuffer_offset + flatbuffer_size` (given a
positive `flatbuffer_size` and a non-negative `bytes_size`). -/
theorem is_valid_boundary (h : VulkanDelegateHeader) :
    (h.flatbuffer_size = 0 → is_valid h = false) ∧
    (h.bytes_offset < h.flatbuffer_offset + h.flatbuffer_size →
      is_valid h = false) ∧
    (0 < h.flatbuffer_size → 0 ≤ h.bytes_size →
      h.bytes_offset = h.flatbuffer_offset + h.flatbuffer_size →
      is_valid h = true) := by
  refine ⟨fun h1 => ?_, fun h1 => ?_, fun h1 h2 h3 => ?_⟩
  · simp [is_valid, h1]
  · by_cases h2 : h.flatbuffer_size ≤ 0
    · simp only [is_valid]
      rw [if_pos h2]
    · simp only [is_valid]
      rw [if_neg h2, if_pos h1]
  · simp [is_valid, h3]
    omega

/-- C5 witness: the three branches at concrete headers. -/
theorem is_valid_boundary_witness :
    is_valid ⟨0, 0, 5, 0⟩ = false ∧
    is_valid ⟨0, 2, 1, 0⟩ = false ∧
    is_valid ⟨3, 4, 7, 0⟩ = true :=
  ⟨(is_valid_boundary ⟨0, 0, 5, 0⟩).1 rfl,
   (is_valid_boundary ⟨0, 2, 1, 0⟩).2.1 (by decide),
   (is_valid_boundary ⟨3, 4, 7, 0⟩).2.2 (by decide) (by decide) (by decide)⟩

/-- C9: whenever a header is valid but one of `flatbuffer_offset`,
`flatbuffer_size`, `bytes_offset` is at least `2^32`, or `bytes_size` is at
least `2^64`, the fixed-width little-endian encoding overflows and
`to_bytes` fails, so totality of `to_bytes` additionally requires every
field to fit its declared width. -/
theorem to_bytes_overflow (h : VulkanDelegateHeader)
    (hv : is_valid h = true)
    (hbig : (2 : Int) ^ 32 ≤ h.flatbuffer_offset ∨
      (2 : Int) ^ 32 ≤ h.flatbuffer_size ∨
      (2 : Int) ^ 32 ≤ h.bytes_offset ∨
      (2 : Int) ^ 64 ≤ h.bytes_size) :
    to_bytes h = none := by
  unfold to_bytes
  rw [if_neg (by simp [hv])]
  rcases hbig with hx | hx | hx | hx
  · rw [show intToBytes h.flatbuffer_offset 4 = none from
      if_neg (by push_neg; intro h0; exact le_trans (by norm_num) hx)]
  · rw [show intToBytes h.flatbuffer_size 4 = none from
      if_neg (by push_neg; intro h0; exact le_trans (by norm_num) hx)]
    cases intToBytes h.flatbuffer_offset 4 <;> cases intToBytes h.bytes_offset 4
      <;> cases intToBytes h.bytes_size 8 <;> rfl
  · rw [show intToBytes h.bytes_offset 4 = none from
      if_neg (by push_neg; intro h0; exact le_trans (by norm_num) hx)]
    cases intToBytes h.flatbuffer_offset 4 <;> cases intToBytes h.flatbuffer_size 4
      <;> cases intToBytes h.bytes_size 8 <;> rfl
  · rw [show intToBytes h.bytes_size 8 = none from
      if_neg (by push_neg; intro h0; exact le_trans (by norm_num) hx)]
    cases intToBytes h.flatbuffer_offset 4 <;> cases intToBytes h.flatbuffer_size 4
      <;> cases intToBytes h.bytes_offset 4 <;> rfl

/-- C9 witness: a concrete valid header with an oversized `flatbuffer_size`
on which `to_bytes` fails. -/
theorem to_bytes_overflow_witness :
    is_valid ⟨0, 4294967296, 4294967297, 0⟩ = true ∧
    to_bytes ⟨0, 4294967296, 4294967297, 0⟩ = none :=
  ⟨by decide,
   to_bytes_overflow ⟨0, 4294967296, 4294967297, 0⟩ (by decide)
     (Or.inr (Or.inl (by decide)))⟩

/-- C10: every header returned by `from_bytes` has all four fields
non-negative (each is decoded as an unsigned little-endian integer), and
consequently its validity is decided entirely by the `flatbuffer_size > 0`
and `bytes_offset ≥ flatbuffer_offset + flatbuffer_size` checks — the
`bytes_size < 0` branch of `is_valid` never fires on it. -/
theorem from_bytes_nonneg (data : List Nat) (h : VulkanDelegateHeader)
    (hfb : from_bytes data = some h) :
    0 ≤ h.flatbuffer_offset ∧ 0 ≤ h.flatbuffer_size ∧
    0 ≤ h.bytes_offset ∧ 0 ≤ h.bytes_size ∧
    is_valid h = (decide (0 < h.flatbuffer_size) &&
      decide (h.flatbuffer_offset + h.flatbuffer_size ≤ h.bytes_offset)) := by
  unfold from_bytes at hfb
  split at hfb
  · exact Option.noConfusion hfb
  split at hfb
  · exact Option.noConfusion hfb
  split at hfb
  · exact Option.noConfusion hfb
  rw [Option.some_inj] at hfb
  subst hfb
  refine ⟨Int.ofNat_nonneg _, Int.ofNat_nonneg _, Int.ofNat_nonneg _,
    Int.ofNat_nonneg _, ?_⟩
  simp only [is_valid]
  split_ifs with h1 h2 h3
  · simp
    omega
  · simp
    omega
  · omega
  · simp
    omega

/-- C10 witness: a concrete parse has non-negative fields and its validity
reduces to the two interval checks. -/
theorem from_bytes_nonneg_witness :
    0 ≤ (5 : Int) ∧ 0 ≤ (7 : Int) ∧ 0 ≤ (12 : Int) ∧ 0 ≤ (3 : Int) ∧
    is_valid ⟨5, 7, 12, 3⟩ = (decide ((0 : Int) < 7) &&
      decide ((5 : Int) + 7 ≤ 12)) :=
  from_bytes_nonneg
    [0, 0, 0, 0, 86, 72, 48, 48, 30, 0, 5, 0, 0, 0, 7, 0, 0, 0,
     12, 0, 0, 0, 3, 0, 0, 0, 0, 0, 0, 0] ⟨5, 7, 12, 3⟩ (by decide)

end HeaderV

namespace SpecModel

theorem wfG_lt (g : List GNode) (hwf : wfG g = true) (i b : Nat)
    (hb : baseOf g i = some b) : b < i := by
  have hi : i < g.length := by
    by_contra hc
    rw [baseOf, List.getElem?_eq_none (le_of_not_lt hc)] at hb
    exact Option.noConfusion hb
  have := List.all_eq_true.mp hwf i (List.mem_range.mpr hi)
  rw [hb] at this
  exact of_decide_eq_true this

theorem resolveFuel_stable (g : List GNode) (hwf : wfG g = true) (i : Nat)
    (fuel : Nat) (hfuel : i + 1 ≤ fuel) :
    resolveFuel g fuel i = resolve g i := by
  induction i using Nat.strong_induction_on generalizing fuel with
  | _ i ih =>
    obtain ⟨f, rfl⟩ : ∃ f, fuel = f + 1 := ⟨fuel - 1, by omega⟩
    show resolveFuel g (f + 1) i = resolveFuel g (i + 1) i
    rw [resolveFuel, resolveFuel]
    cases hb : baseOf g i with
    | none => rfl
    | some b =>
      have hlt : b < i := wfG_lt g hwf i b hb
      show resolveFuel g f b = resolveFuel g i b
      rw [show resolveFuel g i b = resolve g b from ih b hlt i (by omega)]
      exact ih b hlt f (by omega)

theorem resolve_view (g : List GNode) (hwf : wfG g = true) (i b : Nat)
    (hb : baseOf g i = some b) : resolve g i = resolve g b := by
  have hlt : b < i := wfG_lt g hwf i b hb
  rw [resolve, resolveFuel, hb]
  exact resolveFuel_stable g hwf b i (by omega)

theorem resolve_nonview (g : List GNode) (i : Nat)
    (h : isView g i = false) : resolve g i = i := by
  have hb : baseOf g i = none := by
    unfold isView at h
    exact Option.not_isSome_iff_eq_none.mp (by rw [h]; exact Bool.false_ne_true)
  rw [resolve, resolveFuel, hb]

theorem resolve_isView (g : List GNode) (hwf : wfG g = true) (i : Nat) :
    isView g (resolve g i) = false := by
  induction i using Nat.strong_induction_on with
  | _ i ih =>
    cases hb : baseOf g i with
    | none => rw [resolve_nonview g i (by rw [isView, hb]; rfl), isView, hb]; rfl
    | some b =>
      rw [resolve_view g hwf i b hb]
      exact ih b (wfG_lt g hwf i b hb)

theorem getElem?_some_lt {α : Type} (l : List α) (i : Nat) (a : α)
    (h : l[i]? = some a) : i < l.length := by
  by_contra hc
  rw [List.getElem?_eq_none (le_of_not_lt hc)] at h
  exact Option.noConfusion h

theorem extendAt_get_self (specs : List TensorSpec) (b last : Nat) :
    (extendAt specs b last)[b]? = (specs[b]?).map fun s =>
      { s with lifetime := (s.lifetime.1, max s.lifetime.2 last) } := by
  unfold extendAt
  cases hs : specs[b]? with
  | none => rw [hs]; rfl
  | some s =>
    have hb : b < specs.length := getElem?_some_lt specs b s hs
    rw [List.getElem?_set_self hb]
    rfl

theorem extendAt_get_ne (specs : List TensorSpec) (b last j : Nat)
    (h : b ≠ j) : (extendAt specs b last)[j]? = specs[j]? := by
  unfold extendAt
  cases hs : specs[b]? with
  | none => rfl
  | some s => exact List.getElem?_set_ne h

theorem elideGo_nil (g : List GNode) (specs : List TensorSpec) :
    elideGo g [] specs = specs := rfl

theorem elideGo_cons (g : List GNode) (i : Nat) (rest : List Nat)
    (specs : List TensorSpec) :
    elideGo g (i :: rest) specs = elideGo g rest (elideStep g specs i) := rfl

theorem elideStep_of_none (g : List GNode) (specs : List TensorSpec) (i : Nat)
    (hbase : baseOf g i = none) : elideStep g specs i = specs := by
  unfold elideStep
  rw [hbase]

theorem elideStep_of_some (g : List GNode) (specs : List TensorSpec)
    (i b0 : Nat) (hbase : baseOf g i = some b0) :
    elideStep g specs i = extendAt specs (resolve g i) (origLast g i) := by
  unfold elideStep
  rw [hbase]

theorem elideGo_get (g : List GNode) (is : List Nat)
    (specs : List TensorSpec) (b : Nat) :
    (elideGo g is specs)[b]? = (specs[b]?).map fun s =>
      { s with lifetime := (s.lifetime.1,
          (is.filter (viewsTo g b)).foldl
            (fun acc i => max acc (origLast g i)) s.lifetime.2) } := by
  induction is generalizing specs with
  | nil =>
    rw [elideGo_nil]
    cases hs : specs[b]? with
    | none => rfl
    | some s => rfl
  | cons i rest ih =>
    rw [elideGo_cons, ih]
    cases hbase : baseOf g i with
    | none =>
      rw [elideStep_of_none g specs i hbase]
      have hv : viewsTo g b i = false := by simp [viewsTo, isView, hbase]
      rw [List.filter_cons, if_neg (by rw [hv]; exact Bool.false_ne_true)]
    | some b0 =>
      rw [elideStep_of_some g specs i b0 hbase]
      by_cases hr : resolve g i = b
      · have hv : viewsTo g b i = true := by simp [viewsTo, isView, hbase, hr]
        rw [List.filter_cons, if_pos (by rw [hv]), hr, extendAt_get_self]
        cases hs : specs[b]? with
        | none => rfl
        | some s => rfl
      · have hv : viewsTo g b i = false := by simp [viewsTo, hr]
        rw [List.filter_cons, if_neg (by rw [hv]; exact Bool.false_ne_true),
          extendAt_get_ne _ _ _ _ fun hc => hr hc]

theorem elide_get (g : List GNode) (b : Nat) :
    (elide g)[b]? = (g[b]?).map fun n =>
      { n.spec with lifetime := (n.spec.lifetime.1,
          ((List.range g.length).filter (viewsTo g b)).foldl
            (fun acc i => max acc (origLast g i)) n.spec.lifetime.2) } := by
  rw [elide, elideGo_get, List.getElem?_map]
  cases g[b]? with
  | none => rfl
  | some n => rfl

theorem planGo_nil (g : List GNode) (st : Nat × List TensorSpec) :
    planGo g [] st = st := rfl

theorem planGo_cons (g : List GNode) (i : Nat) (rest : List Nat)
    (st : Nat × List TensorSpec) :
    planGo g (i :: rest) st = planGo g rest (planStep g st i) := rfl

theorem planStep_of_node_none (g : List GNode) (st : Nat × List TensorSpec)
    (i : Nat) (hg : g[i]? = none) : planStep g st i = st := by
  cases hs : st.2[i]? <;> (unfold planStep; rw [hg, hs])

theorem planStep_of_view (g : List GNode) (st : Nat × List TensorSpec)
    (i b0 : Nat) (sp : TensorSpec) (hg : g[i]? = some ⟨.view b0, sp⟩) :
    planStep g st i = st := by
  cases hs : st.2[i]? <;> (unfold planStep; rw [hg, hs])

theorem planStep_of_spec_none (g : List GNode) (st : Nat × List TensorSpec)
    (i : Nat) (sp : TensorSpec) (hg : g[i]? = some ⟨.prim, sp⟩)
    (hs : st.2[i]? = none) : planStep g st i = st := by
  unfold planStep
  rw [hg, hs]

theorem planStep_of_const (g : List GNode) (st : Nat × List TensorSpec)
    (i : Nat) (sp s : TensorSpec) (hg : g[i]? = some ⟨.prim, sp⟩)
    (hs : st.2[i]? = some s) (hc : s.const = true) :
    planStep g st i = st := by
  unfold planStep
  rw [hg, hs]
  show (if s.const = true then st else _) = st
  rw [if_pos hc]

theorem planStep_of_assign (g : List GNode) (st : Nat × List TensorSpec)
    (i : Nat) (sp s : TensorSpec) (hg : g[i]? = some ⟨.prim, sp⟩)
    (hs : st.2[i]? = some s) (hc : s.const = false) :
    planStep g st i = (st.1 + alignUp (sizeBytes s) 16,
      st.2.set i { s with mem_id := some 1, mem_offset := some st.1 }) := by
  unfold planStep
  rw [hg, hs]
  show (if s.const = true then st else _) = _
  rw [if_neg (by rw [hc]; exact Bool.false_ne_true)]

theorem planStep_get_ne (g : List GNode) (st : Nat × List TensorSpec)
    (i j : Nat) (h : i ≠ j) : (planStep g st i).2[j]? = st.2[j]? := by
  cases hg : g[i]? with
  | none => rw [planStep_of_node_none g st i hg]
  | some n =>
    obtain ⟨k, sp⟩ := n
    cases k with
    | view b0 => rw [planStep_of_view g st i b0 sp hg]
    | prim =>
      cases hs : st.2[i]? with
      | none => rw [planStep_of_spec_none g st i sp hg hs]
      | some s =>
        by_cases hc : s.const = true
        · rw [planStep_of_const g st i sp s hg hs hc]
        · rw [planStep_of_assign g st i sp s hg hs ((Bool.not_eq_true _).mp hc)]
          exact List.getElem?_set_ne h

theorem planStep_get (g : List GNode) (st : Nat × List TensorSpec) (j : Nat) :
    (planStep g st j).2[j]? = st.2[j]? ∨
    ∃ s, st.2[j]? = some s ∧ s.const = false ∧
      (planStep g st j).2[j]? = some
        { s with mem_id := some 1, mem_offset := some st.1 } := by
  cases hg : g[j]? with
  | none => left; rw [planStep_of_node_none g st j hg]
  | some n =>
    obtain ⟨k, sp⟩ := n
    cases k with
    | view b0 => left; rw [planStep_of_view g st j b0 sp hg]
    | prim =>
      cases hs : st.2[j]? with
      | none => left; rw [planStep_of_spec_none g st j sp hg hs]; exact hs
      | some s =>
        by_cases hc : s.const = true
        · left; rw [planStep_of_const g st j sp s hg hs hc]; exact hs
        · right
          refine ⟨s, rfl, (Bool.not_eq_true _).mp hc, ?_⟩
          rw [planStep_of_assign g st j sp s hg hs ((Bool.not_eq_true _).mp hc)]
          exact List.getElem?_set_self (getElem?_some_lt _ _ _ hs)

theorem planGo_shape (g : List GNode) (is : List Nat)
    (st : Nat × List TensorSpec) (j : Nat) :
    (planGo g is st).2[j]? = st.2[j]? ∨
    ∃ s off, st.2[j]? = some s ∧ (planGo g is st).2[j]? = some
      { s with mem_id := some 1, mem_offset := some off } := by
  induction is generalizing st with
  | nil => left; rw [planGo_nil]
  | cons i rest ih =>
    rw [planGo_cons]
    have hstep : (planStep g st i).2[j]? = st.2[j]? ∨
        ∃ s, st.2[j]? = some s ∧ s.const = false ∧
          (planStep g st i).2[j]? = some
            { s with mem_id := some 1, mem_offset := some st.1 } := by
      by_cases hij : i = j
      · subst hij; exact planStep_get g st i
      · left; exact planStep_get_ne g st i j hij
    rcases ih (planStep g st i) with h | ⟨s, off, hs, h⟩
    · rcases hstep with h2 | ⟨s, hs, hc, h2⟩
      · left; rw [h, h2]
      · right; exact ⟨s, st.1, hs, by rw [h, h2]⟩
    · rcases hstep with h2 | ⟨s0, hs0, hc0, h2⟩
      · right; exact ⟨s, off, by rw [← h2]; exact hs, h⟩
      · right
        refine ⟨s0, off, hs0, ?_⟩
        rw [h2] at hs
        cases Option.some_inj.mp hs
        exact h

theorem planGo_const (g : List GNode) (is : List Nat)
    (st : Nat × List TensorSpec) (j : Nat) (s : TensorSpec)
    (hs : st.2[j]? = some s) (hc : s.const = true) :
    (planGo g is st).2[j]? = some s := by
  induction is generalizing st with
  | nil => rw [planGo_nil]; exact hs
  | cons i rest ih =>
    rw [planGo_cons]
    by_cases hij : i = j
    · subst hij
      cases hg : g[i]? with
      | none => rw [planStep_of_node_none g st i hg]; exact ih st hs
      | some n =>
        obtain ⟨k, sp⟩ := n
        cases k with
        | view b0 => rw [planStep_of_view g st i b0 sp hg]; exact ih st hs
        | prim => rw [planStep_of_const g st i sp s hg hs hc]; exact ih st hs
    · exact ih (planStep g st i)
        (by rw [planStep_get_ne g st i j hij]; exact hs)

theorem planGo_assigned (g : List GNode) (is : List Nat)
    (st : Nat × List TensorSpec) (j : Nat) (s sp : TensorSpec)
    (hj : j ∈ is) (hg : g[j]? = some ⟨.prim, sp⟩)
    (hs : st.2[j]? = some s) (hc : s.const = false) :
    ∃ off, (planGo g is st).2[j]? = some
      { s with mem_id := some 1, mem_offset := some off } := by
  induction is generalizing st with
  | nil => cases hj
  | cons i rest ih =>
    rw [planGo_cons]
    by_cases hij : i = j
    · subst hij
      have hset : (planStep g st i).2[i]? = some
          { s with mem_id := some 1, mem_offset := some st.1 } := by
        rw [planStep_of_assign g st i sp s hg hs hc]
        exact List.getElem?_set_self (getElem?_some_lt _ _ _ hs)
      rcases planGo_shape g rest (planStep g st i) i with h | ⟨s1, off, hs1, h⟩
      · exact ⟨st.1, by rw [h, hset]⟩
      · rw [hset] at hs1
        cases Option.some_inj.mp hs1
        exact ⟨off, h⟩
    · have hj2 : j ∈ rest := by
        rcases List.mem_cons.mp hj with h | h
        · exact absurd h.symm hij
        · exact h
      exact ih (planStep g st i) hj2
        (by rw [planStep_get_ne g st i j hij]; exact hs)

theorem plan_shape (g : List GNode) (specs : List TensorSpec) (j : Nat) :
    (plan g specs)[j]? = specs[j]? ∨
    ∃ s off, specs[j]? = some s ∧ (plan g specs)[j]? = some
      { s with mem_id := some 1, mem_offset := some off } :=
  planGo_shape g (List.range g.length) (0, specs) j

theorem plan_const (g : List GNode) (specs : List TensorSpec) (j : Nat)
    (s : TensorSpec) (hs : specs[j]? = some s) (hc : s.const = true) :
    (plan g specs)[j]? = some s :=
  planGo_const g (List.range g.length) (0, specs) j s hs hc

theorem plan_assigned (g : List GNode) (specs : List TensorSpec) (j : Nat)
    (s sp : TensorSpec) (hj : j < g.length) (hg : g[j]? = some ⟨.prim, sp⟩)
    (hs : specs[j]? = some s) (hc : s.const = false) :
    ∃ off, (plan g specs)[j]? = some
      { s with mem_id := some 1, mem_offset := some off } :=
  planGo_assigned g (List.range g.length) (0, specs) j s sp
    (List.mem_range.mpr hj) hg hs hc

theorem foldl_max_mem (f : Nat → Nat) (l : List Nat) (i a : Nat)
    (h : ∀ j ∈ l, j = i) :
    l.foldl (fun acc j => max acc (f j)) a =
      if i ∈ l then max a (f i) else a := by
  induction l generalizing a with
  | nil => simp
  | cons j rest ih =>
    obtain rfl : j = i := h j (List.mem_cons_self j rest)
    rw [List.foldl_cons, ih _ fun k hk => h k (List.mem_cons_of_mem _ hk),
      if_pos (List.mem_cons_self j rest)]
    split_ifs with hm
    · rw [max_assoc, max_self]
    · rfl

/-- C6 (modelled from the spec, SS4.1/SS8): for a view node `i` whose base
resolves to the non-view node `b` (the only view of `b`), after elision and
planning the view's spec is the base's spec in every field; the base's
lifetime upper bound becomes the `max` of its own and the view's pre-pass
last use, so it changes exactly when the view's last use is later; a view
of a constant keeps `const` and `storage` and never receives
`mem_id`/`mem_offset`, while a view of a non-constant value shares the
planner's single `(mem_id, mem_offset)` assignment with its base. -/
theorem alias_equiv (g : List GNode) (i b : Nat) (nb : GNode)
    (hwf : wfG g = true) (hview : isView g i = true)
    (hb : resolve g i = b) (hnb : g[b]? = some nb)
    (hmem : nb.spec.mem_id = none) (hmoff : nb.spec.mem_offset = none)
    (honly : ∀ j, j < g.length → viewsTo g b j = true → j = i) :
    specAfter g i = specAfter g b ∧
    (∀ s, specAfter g i = some s →
      s.lifetime = (nb.spec.lifetime.1,
        max nb.spec.lifetime.2 (origLast g i))) ∧
    (nb.spec.const = true → specAfter g i = some
      { nb.spec with lifetime := (nb.spec.lifetime.1,
          max nb.spec.lifetime.2 (origLast g i)) }) ∧
    (nb.spec.const = false → ∃ off, specAfter g i = some
      { nb.spec with
          mem_id := some 1,
          mem_offset := some off,
          lifetime := (nb.spec.lifetime.1,
            max nb.spec.lifetime.2 (origLast g i)) }) := by
  have hbv : isView g b = false := hb ▸ resolve_isView g hwf i
  have hrb : resolve g b = b := resolve_nonview g b hbv
  have hilen : i < g.length := by
    unfold isView baseOf at hview
    by_contra hc
    rw [List.getElem?_eq_none (le_of_not_lt hc)] at hview
    exact Bool.noConfusion hview
  have hvb : viewsTo g b i = true := by
    rw [viewsTo, hview, hb]
    simp
  have helide : (elide g)[b]? = some { nb.spec with
      lifetime := (nb.spec.lifetime.1,
        max nb.spec.lifetime.2 (origLast g i)) } := by
    rw [elide_get, hnb]
    have hall : ∀ j ∈ (List.range g.length).filter (viewsTo g b), j = i := by
      intro j hj
      have h1 := List.mem_filter.mp hj
      exact honly j (List.mem_range.mp h1.1) h1.2
    have hmemf : i ∈ (List.range g.length).filter (viewsTo g b) :=
      List.mem_filter.mpr (And.intro (List.mem_range.mpr hilen) hvb)
    rw [Option.map_some', foldl_max_mem (origLast g) _ i _ hall, if_pos hmemf]
  have hkind : nb.kind = NodeKind.prim := by
    cases hk : nb.kind with
    | prim => rfl
    | view b0 =>
      obtain ⟨k, sp⟩ := nb
      simp only at hk
      subst hk
      rw [isView, baseOf, hnb] at hbv
      exact Bool.noConfusion hbv
  have hafter : specAfter g i = (plan g (elide g))[b]? := by
    rw [specAfter, hb]
  refine ⟨by rw [specAfter, specAfter, hb, hrb], ?_, ?_, ?_⟩
  · intro s hsome
    rw [hafter] at hsome
    rcases plan_shape g (elide g) b with h | ⟨s1, off, hs1, h⟩
    · rw [h, helide] at hsome
      cases Option.some_inj.mp hsome
      rfl
    · rw [helide] at hs1
      cases Option.some_inj.mp hs1
      rw [h] at hsome
      cases Option.some_inj.mp hsome
      rfl
  · intro hc
    rw [hafter]
    exact plan_const g (elide g) b _ helide hc
  · intro hc
    obtain ⟨k, sp⟩ := nb
    simp only at hkind hmem hmoff hc helide ⊢
    subst hkind
    obtain ⟨off, hoff⟩ := plan_assigned g (elide g) b _ sp
      (getElem?_some_lt g b _ hnb) hnb helide hc
    exact ⟨off, by rw [hafter]; exact hoff⟩

/-- C6 witness: on the concrete two-node graph the view's post-pass spec
equals the base's, the base's lifetime is extended to the view's last use
and the alias group shares one planner assignment. -/
theorem alias_equiv_witness :
    specAfter gEx 1 = specAfter gEx 0 ∧
    (∀ s, specAfter gEx 1 = some s →
      s.lifetime = (sBEx.lifetime.1, max sBEx.lifetime.2 (origLast gEx 1))) ∧
    (sBEx.const = true → specAfter gEx 1 = some
      { sBEx with lifetime := (sBEx.lifetime.1,
          max sBEx.lifetime.2 (origLast gEx 1)) }) ∧
    (sBEx.const = false → ∃ off, specAfter gEx 1 = some
      { sBEx with
          mem_id := some 1,
          mem_offset := some off,
          lifetime := (sBEx.lifetime.1,
            max sBEx.lifetime.2 (origLast gEx 1)) }) :=
  alias_equiv gEx 1 0 ⟨.prim, sBEx⟩ (by decide) (by decide) (by decide) rfl
    rfl rfl (by decide)

end SpecModel

namespace ExecM

/-- C7 (modelled from the spec, §8 scenario): the emitted plan for the
scenario graph has exactly 4 instructions and exactly 2 distinct
operator-table entries, the table populated in strict first-seen order
(the view/reinterpret operator at index 0, the multiply at index 1), and
the instructions' `op_index` sequence is 0, 0, 1, 0. -/
theorem scenario_plan (p : List Int) (inputs : List (List Int)) :
    (emitOperators (scenarioGraph p)).1
      = ["executorch_prim::et_view", "aten::mul"] ∧
    (emitOperators (scenarioGraph p)).1.length = 2 ∧
    (emitOperators (scenarioGraph p)).2 = [0, 0, 1, 0] ∧
    (emitOperators (scenarioGraph p)).2.length = 4 ∧
    (compileInstrs (scenarioGraph p) inputs).length = 4 := by
  exact ⟨rfl, rfl, rfl, rfl, rfl⟩

theorem denoteUpTo_length (g : List VNode) (inputs : List (List Int))
    (m : Nat) : (denoteUpTo g inputs m).length = m := by
  induction m with
  | zero => rfl
  | succ k ih =>
    show (denoteUpTo g inputs k ++ [_]).length = k + 1
    rw [List.length_append, ih]
    rfl

theorem sizesUpTo_length (g : List VNode) (inputs : List (List Int))
    (m : Nat) : (sizesUpTo g inputs m).length = m := by
  induction m with
  | zero => rfl
  | succ k ih =>
    show (sizesUpTo g inputs k ++ [_]).length = k + 1
    rw [List.length_append, ih]
    rfl

theorem denoteAt_eq (g : List VNode) (inputs : List (List Int)) (i : Nat) :
    denoteAt g inputs i
      = denoteNode inputs (denoteUpTo g inputs i) (g.getD i (.input 0)) := by
  have h1 : (denoteUpTo g inputs i).length = i := denoteUpTo_length g inputs i
  show (denoteUpTo g inputs i ++ [_]).getD i [] = _
  rw [List.getD_append_right _ _ _ _ (le_of_eq h1), h1, Nat.sub_self]
  rfl

theorem sizeAt_eq (g : List VNode) (inputs : List (List Int)) (i : Nat) :
    sizeAt g inputs i = (match g.getD i (.input 0) with
      | .input k => (inputs.getD k []).length
      | .constant d => d.length
      | .view b => (sizesUpTo g inputs i).getD b 0
      | .mul a _ => (sizesUpTo g inputs i).getD a 0) := by
  have h1 : (sizesUpTo g inputs i).length = i := sizesUpTo_length g inputs i
  show (sizesUpTo g inputs i ++ [_]).getD i 0 = _
  rw [List.getD_append_right _ _ _ _ (le_of_eq h1), h1, Nat.sub_self]
  rfl

theorem denoteUpTo_getD (g : List VNode) (inputs : List (List Int))
    (m j : Nat) (h : j < m) :
    (denoteUpTo g inputs m).getD j [] = denoteAt g inputs j := by
  induction m with
  | zero => omega
  | succ k ih =>
    show (denoteUpTo g inputs k ++ [_]).getD j [] = _
    by_cases hj : j < k
    · rw [List.getD_append _ _ _ _ (by rw [denoteUpTo_length]; exact hj)]
      exact ih hj
    · obtain rfl : j = k := by omega
      have h1 : (denoteUpTo g inputs j).length = j := denoteUpTo_length g inputs j
      rw [List.getD_append_right _ _ _ _ (le_of_eq h1), h1, Nat.sub_self]
      rw [denoteAt_eq]
      rfl

theorem sizesUpTo_getD (g : List VNode) (inputs : List (List Int))
    (m j : Nat) (h : j < m) :
    (sizesUpTo g inputs m).getD j 0 = sizeAt g inputs j := by
  induction m with
  | zero => omega
  | succ k ih =>
    show (sizesUpTo g inputs k ++ [_]).getD j 0 = _
    by_cases hj : j < k
    · rw [List.getD_append _ _ _ _ (by rw [sizesUpTo_length]; exact hj)]
      exact ih hj
    · obtain rfl : j = k := by omega
      have h1 : (sizesUpTo g inputs j).length = j := sizesUpTo_length g inputs j
      rw [List.getD_append_right _ _ _ _ (le_of_eq h1), h1, Nat.sub_self]
      rw [sizeAt_eq]
      rfl

theorem getDV_of_getElem (g : List VNode) (i : Nat) (n : VNode)
    (hg : g[i]? = some n) : g.getD i (.input 0) = n := by
  rw [List.getD_eq_getElem?_getD, hg]
  rfl

theorem denoteAt_input (g : List VNode) (inputs : List (List Int))
    (i k : Nat) (hg : g[i]? = some (.input k)) :
    denoteAt g inputs i = inputs.getD k [] := by
  rw [denoteAt_eq, getDV_of_getElem g i _ hg]
  rfl

theorem denoteAt_const (g : List VNode) (inputs : List (List Int))
    (i : Nat) (d : List Int) (hg : g[i]? = some (.constant d)) :
    denoteAt g inputs i = d := by
  rw [denoteAt_eq, getDV_of_getElem g i _ hg]
  rfl

theorem denoteAt_view (g : List VNode) (inputs : List (List Int))
    (i b : Nat) (hg : g[i]? = some (.view b)) (hb : b < i) :
    denoteAt g inputs i = denoteAt g inputs b := by
  rw [denoteAt_eq, getDV_of_getElem g i _ hg]
  show (denoteUpTo g inputs i).getD b [] = _
  exact denoteUpTo_getD g inputs i b hb

theorem denoteAt_mul (g : List VNode) (inputs : List (List Int))
    (i a b : Nat) (hg : g[i]? = some (.mul a b)) (ha : a < i) (hb : b < i) :
    denoteAt g inputs i
      = List.zipWith (· * ·) (denoteAt g inputs a) (denoteAt g inputs b) := by
  rw [denoteAt_eq, getDV_of_getElem g i _ hg]
  show List.zipWith _ ((denoteUpTo g inputs i).getD a [])
    ((denoteUpTo g inputs i).getD b []) = _
  rw [denoteUpTo_getD g inputs i a ha, denoteUpTo_getD g inputs i b hb]

theorem sizeAt_input (g : List VNode) (inputs : List (List Int))
    (i k : Nat) (hg : g[i]? = some (.input k)) :
    sizeAt g inputs i = (inputs.getD k []).length := by
  rw [sizeAt_eq, getDV_of_getElem g i _ hg]

theorem sizeAt_const (g : List VNode) (inputs : List (List Int))
    (i : Nat) (d : List Int) (hg : g[i]? = some (.constant d)) :
    sizeAt g inputs i = d.length := by
  rw [sizeAt_eq, getDV_of_getElem g i _ hg]

theorem sizeAt_view (g : List VNode) (inputs : List (List Int))
    (i b : Nat) (hg : g[i]? = some (.view b)) (hb : b < i) :
    sizeAt g inputs i = sizeAt g inputs b := by
  rw [sizeAt_eq, getDV_of_getElem g i _ hg]
  exact sizesUpTo_getD g inputs i b hb

theorem sizeAt_mul (g : List VNode) (inputs : List (List Int))
    (i a b : Nat) (hg : g[i]? = some (.mul a b)) (ha : a < i) :
    sizeAt g inputs i = sizeAt g inputs a := by
  rw [sizeAt_eq, getDV_of_getElem g i _ hg]
  exact sizesUpTo_getD g inputs i a ha

theorem wfV_view (g : List VNode) (inputs : List (List Int))
    (hwf : wfV g inputs = true) (i b : Nat) (hi : i < g.length)
    (hg : g[i]? = some (.view b)) : b < i := by
  have h := List.all_eq_true.mp hwf i (List.mem_range.mpr hi)
  simp only [hg] at h
  exact of_decide_eq_true h

theorem wfV_mul (g : List VNode) (inputs : List (List Int))
    (hwf : wfV g inputs = true) (i a b : Nat) (hi : i < g.length)
    (hg : g[i]? = some (.mul a b)) :
    a < i ∧ b < i ∧ sizeAt g inputs a = sizeAt g inputs b := by
  have h := List.all_eq_true.mp hwf i (List.mem_range.mpr hi)
  simp only [hg, Bool.and_eq_true, decide_eq_true_eq, beq_iff_eq] at h
  exact ⟨h.1.1, h.1.2, h.2⟩

theorem baseV_some (g : List VNode) (i b : Nat) (h : baseV g i = some b) :
    g[i]? = some (.view b) := by
  unfold baseV at h
  cases hg : g[i]? with
  | none =>
    simp only [hg] at h
    exact Option.noConfusion h
  | some n =>
    cases n with
    | view b0 =>
      simp only [hg, Option.some_inj] at h
      rw [h]
    | input k =>
      simp only [hg] at h
      exact Option.noConfusion h
    | constant d =>
      simp only [hg] at h
      exact Option.noConfusion h
    | mul a0 b0 =>
      simp only [hg] at h
      exact Option.noConfusion h

theorem wfV_base_lt (g : List VNode) (inputs : List (List Int))
    (hwf : wfV g inputs = true) (i b : Nat) (h : baseV g i = some b) :
    b < i := by
  have hg := baseV_some g i b h
  exact wfV_view g inputs hwf i b (SpecModel.getElem?_some_lt g i _ hg) hg

theorem resolveVF_stable (g : List VNode) (inputs : List (List Int))
    (hwf : wfV g inputs = true) (i fuel : Nat) (hfuel : i + 1 ≤ fuel) :
    resolveVF g fuel i = resolveV g i := by
  induction i using Nat.strong_induction_on generalizing fuel with
  | _ i ih =>
    obtain ⟨f, rfl⟩ : ∃ f, fuel = f + 1 := ⟨fuel - 1, by omega⟩
    show resolveVF g (f + 1) i = resolveVF g (i + 1) i
    rw [resolveVF, resolveVF]
    cases hb : baseV g i with
    | none => rfl
    | some b =>
      have hlt : b < i := wfV_base_lt g inputs hwf i b hb
      show resolveVF g f b = resolveVF g i b
      rw [show resolveVF g i b = resolveV g b from ih b hlt i (by omega)]
      exact ih b hlt f (by omega)

theorem resolveV_viewstep (g : List VNode) (inputs : List (List Int))
    (hwf : wfV g inputs = true) (i b : Nat) (hb : baseV g i = some b) :
    resolveV g i = resolveV g b := by
  have hlt : b < i := wfV_base_lt g inputs hwf i b hb
  rw [resolveV, resolveVF, hb]
  exact resolveVF_stable g inputs hwf b i (by omega)

theorem resolveV_nonbase (g : List VNode) (i : Nat)
    (h : baseV g i = none) : resolveV g i = i := by
  rw [resolveV, resolveVF, h]

theorem resolveV_base_none (g : List VNode) (inputs : List (List Int))
    (hwf : wfV g inputs = true) (i : Nat) :
    baseV g (resolveV g i) = none := by
  induction i using Nat.strong_induction_on with
  | _ i ih =>
    cases hb : baseV g i with
    | none => rw [resolveV_nonbase g i hb]; exact hb
    | some b =>
      rw [resolveV_viewstep g inputs hwf i b hb]
      exact ih b (wfV_base_lt g inputs hwf i b hb)

theorem resolveV_le (g : List VNode) (inputs : List (List Int))
    (hwf : wfV g inputs = true) (i : Nat) : resolveV g i ≤ i := by
  induction i using Nat.strong_induction_on with
  | _ i ih =>
    cases hb : baseV g i with
    | none => rw [resolveV_nonbase g i hb]
    | some b =>
      have hlt : b < i := wfV_base_lt g inputs hwf i b hb
      rw [resolveV_viewstep g inputs hwf i b hb]
      exact le_trans (ih b hlt) (le_of_lt hlt)

theorem denoteAt_resolve (g : List VNode) (inputs : List (List Int))
    (hwf : wfV g inputs = true) (i : Nat) :
    denoteAt g inputs i = denoteAt g inputs (resolveV g i) := by
  induction i using Nat.strong_induction_on with
  | _ i ih =>
    cases hb : baseV g i with
    | none => rw [resolveV_nonbase g i hb]
    | some b =>
      have hlt : b < i := wfV_base_lt g inputs hwf i b hb
      rw [denoteAt_view g inputs i b (baseV_some g i b hb) hlt,
        resolveV_viewstep g inputs hwf i b hb]
      exact ih b hlt

theorem sizeAt_resolve (g : List VNode) (inputs : List (List Int))
    (hwf : wfV g inputs = true) (i : Nat) :
    sizeAt g inputs i = sizeAt g inputs (resolveV g i) := by
  induction i using Nat.strong_induction_on with
  | _ i ih =>
    cases hb : baseV g i with
    | none => rw [resolveV_nonbase g i hb]
    | some b =>
      have hlt : b < i := wfV_base_lt g inputs hwf i b hb
      rw [sizeAt_view g inputs i b (baseV_some g i b hb) hlt,
        resolveV_viewstep g inputs hwf i b hb]
      exact ih b hlt

theorem size_denote (g : List VNode) (inputs : List (List Int))
    (hwf : wfV g inputs = true) (i : Nat) (hi : i < g.length) :
    (denoteAt g inputs i).length = sizeAt g inputs i := by
  induction i using Nat.strong_induction_on with
  | _ i ih =>
    cases hg : g[i]? with
    | none =>
      have := List.getElem?_eq_getElem hi
      rw [hg] at this
      exact Option.noConfusion this
    | some n =>
      cases n with
      | input k =>
        rw [denoteAt_input g inputs i k hg, sizeAt_input g inputs i k hg]
      | constant d =>
        rw [denoteAt_const g inputs i d hg, sizeAt_const g inputs i d hg]
      | view b =>
        have hb : b < i := wfV_view g inputs hwf i b hi hg
        rw [denoteAt_view g inputs i b hg hb, sizeAt_view g inputs i b hg hb]
        exact ih b hb (lt_trans hb hi)
      | mul a b =>
        obtain ⟨ha, hb, hsz⟩ := wfV_mul g inputs hwf i a b hi hg
        rw [denoteAt_mul g inputs i a b hg ha hb,
          sizeAt_mul g inputs i a b hg ha, List.length_zipWith,
          ih a ha (lt_trans ha hi), ih b hb (lt_trans hb hi), ← hsz,
          min_self]

theorem poolOff_succ (g : List VNode) (inputs : List (List Int)) (i : Nat) :
    poolOff g inputs (i + 1) = poolOff g inputs i +
      (if isMul g i then sizeAt g inputs i else 0) := by
  unfold poolOff
  rw [List.range_succ, List.filter_append, List.map_append, List.sum_append]
  cases hm : isMul g i with
  | false => simp [List.filter, hm]
  | true => simp [List.filter, hm]

theorem poolOff_mono (g : List VNode) (inputs : List (List Int))
    (i j : Nat) (h : i ≤ j) : poolOff g inputs i ≤ poolOff g inputs j := by
  induction j with
  | zero =>
    obtain rfl : i = 0 := by omega
    exact le_refl _
  | succ k ih =>
    by_cases hik : i ≤ k
    · exact le_trans (ih hik) (by rw [poolOff_succ]; omega)
    · obtain rfl : i = k + 1 := by omega
      exact le_refl _

theorem mul_region_le (g : List VNode) (inputs : List (List Int))
    (r m : Nat) (a b : Nat) (hg : g[r]? = some (.mul a b)) (hrm : r < m) :
    poolOff g inputs r + sizeAt g inputs r ≤ poolOff g inputs m := by
  have hmul : isMul g r = true := by unfold isMul; rw [hg]
  have h1 : poolOff g inputs (r + 1)
      = poolOff g inputs r + sizeAt g inputs r := by
    rw [poolOff_succ, hmul, if_pos rfl]
  rw [← h1]
  exact poolOff_mono g inputs (r + 1) m hrm

theorem writeSlice_length (pool : List Int) (off : Nat) (v : List Int)
    (h : off + v.length ≤ pool.length) :
    (writeSlice pool off v).length = pool.length := by
  simp only [writeSlice, List.length_append, List.length_take,
    List.length_drop]
  omega

theorem take_writeSlice (pool : List Int) (off : Nat) (v : List Int)
    (h : off ≤ pool.length) :
    (writeSlice pool off v).take off = pool.take off := by
  unfold writeSlice
  exact List.take_left' (by rw [List.length_take]; exact min_eq_left h)

theorem readSlice_congr (xs ys : List Int) (m off len : Nat)
    (hxy : xs.take m = ys.take m) (h : off + len ≤ m) :
    (xs.drop off).take len = (ys.drop off).take len := by
  have key : ∀ zs : List Int,
      ((zs.take m).drop off).take len = (zs.drop off).take len := by
    intro zs
    rw [List.drop_take, List.take_take, min_eq_left (by omega)]
  rw [← key xs, ← key ys, hxy]

theorem read_write_below (pool : List Int) (off : Nat) (v : List Int)
    (off2 len2 : Nat) (h2 : off2 + len2 ≤ off) (hoff : off ≤ pool.length) :
    ((writeSlice pool off v).drop off2).take len2
      = (pool.drop off2).take len2 :=
  readSlice_congr _ _ off off2 len2 (take_writeSlice pool off v hoff) h2

theorem read_write_at (pool : List Int) (off : Nat) (v : List Int)
    (h : off + v.length ≤ pool.length) :
    ((writeSlice pool off v).drop off).take v.length = v := by
  unfold writeSlice
  rw [List.drop_left' (by rw [List.length_take]; exact min_eq_left (by omega))]
  exact List.take_left' rfl

theorem chainUpTo_succ (g : List VNode) (inputs : List (List Int))
    (m : Nat) : chainUpTo g inputs (m + 1)
      = chainUpTo g inputs m ++ instrOf g inputs m := by
  unfold chainUpTo
  rw [List.range_succ, List.map_append, List.flatten_append]
  simp

theorem execChain_append (inputs : List (List Int)) (pool : List Int)
    (xs ys : List Instr) : execChain inputs pool (xs ++ ys)
      = execChain inputs (execChain inputs pool xs) ys := by
  unfold execChain
  rw [List.foldl_append]

theorem instrOf_input (g : List VNode) (inputs : List (List Int))
    (i k : Nat) (hg : g[i]? = some (.input k)) : instrOf g inputs i = [] := by
  unfold instrOf
  rw [hg]

theorem instrOf_const (g : List VNode) (inputs : List (List Int))
    (i : Nat) (d : List Int) (hg : g[i]? = some (.constant d)) :
    instrOf g inputs i = [] := by
  unfold instrOf
  rw [hg]

theorem instrOf_view (g : List VNode) (inputs : List (List Int))
    (i b : Nat) (hg : g[i]? = some (.view b)) :
    instrOf g inputs i
      = [.etView (locAt g inputs b) (locAt g inputs i)] := by
  unfold instrOf
  rw [hg]

theorem instrOf_mul (g : List VNode) (inputs : List (List Int))
    (i a b : Nat) (hg : g[i]? = some (.mul a b)) :
    instrOf g inputs i = [.opMul (locAt g inputs a) (locAt g inputs b)
      (poolOff g inputs i) (sizeAt g inputs i)] := by
  unfold instrOf
  rw [hg]

theorem locAt_congr (g : List VNode) (inputs : List (List Int))
    (i j : Nat) (h : resolveV g i = resolveV g j) :
    locAt g inputs i = locAt g inputs j := by
  unfold locAt
  rw [h]

theorem baseV_of_input (g : List VNode) (i k : Nat)
    (hg : g[i]? = some (.input k)) : baseV g i = none := by
  unfold baseV
  rw [hg]

theorem baseV_of_const (g : List VNode) (i : Nat) (d : List Int)
    (hg : g[i]? = some (.constant d)) : baseV g i = none := by
  unfold baseV
  rw [hg]

theorem baseV_of_mul (g : List VNode) (i a b : Nat)
    (hg : g[i]? = some (.mul a b)) : baseV g i = none := by
  unfold baseV
  rw [hg]

theorem locAt_input (g : List VNode) (inputs : List (List Int))
    (i k : Nat) (hg : g[i]? = some (.input k)) :
    locAt g inputs i = .inp k := by
  unfold locAt
  rw [resolveV_nonbase g i (baseV_of_input g i k hg), hg]

theorem locAt_const (g : List VNode) (inputs : List (List Int))
    (i : Nat) (d : List Int) (hg : g[i]? = some (.constant d)) :
    locAt g inputs i = .cst d := by
  unfold locAt
  rw [resolveV_nonbase g i (baseV_of_const g i d hg), hg]

theorem locAt_mul (g : List VNode) (inputs : List (List Int))
    (i a b : Nat) (hg : g[i]? = some (.mul a b)) :
    locAt g inputs i
      = .pool (poolOff g inputs i) (sizeAt g inputs i) := by
  unfold locAt
  rw [resolveV_nonbase g i (baseV_of_mul g i a b hg), hg]

theorem locAt_pool_inv (g : List VNode) (inputs : List (List Int))
    (j off2 len2 : Nat) (h : locAt g inputs j = .pool off2 len2) :
    (∃ a b, g[resolveV g j]? = some (.mul a b)) ∧
    off2 = poolOff g inputs (resolveV g j) ∧
    len2 = sizeAt g inputs (resolveV g j) := by
  unfold locAt at h
  cases hr : g[resolveV g j]? with
  | none =>
    simp only [hr] at h
    exact Loc.noConfusion h
  | some n =>
    cases n with
    | input k =>
      simp only [hr] at h
      exact Loc.noConfusion h
    | constant d =>
      simp only [hr] at h
      exact Loc.noConfusion h
    | view b =>
      simp only [hr] at h
      exact Loc.noConfusion h
    | mul a b =>
      simp only [hr, Loc.pool.injEq] at h
      exact ⟨⟨a, b, rfl⟩, h.1.symm, h.2.symm⟩

theorem exec_inv (g : List VNode) (inputs : List (List Int))
    (hwf : wfV g inputs = true) (m : Nat) (hm : m ≤ g.length) :
    (execChain inputs (initPool g inputs) (chainUpTo g inputs m)).length
      = poolSize g inputs ∧
    ∀ j, j < m → readLoc inputs
      (execChain inputs (initPool g inputs) (chainUpTo g inputs m))
      (locAt g inputs j) = denoteAt g inputs j := by
  induction m with
  | zero =>
    constructor
    · exact List.length_replicate _ _
    · intro j hj
      omega
  | succ m ih =>
    have hm2 : m ≤ g.length := by omega
    have hmlt : m < g.length := by omega
    obtain ⟨hlen, hread⟩ := ih hm2
    rw [chainUpTo_succ, execChain_append]
    set P := execChain inputs (initPool g inputs) (chainUpTo g inputs m)
      with hP
    cases hg : g[m]? with
    | none =>
      have h2 := List.getElem?_eq_getElem hmlt
      rw [hg] at h2
      exact Option.noConfusion h2
    | some n =>
      cases n with
      | input k =>
        rw [instrOf_input g inputs m k hg]
        refine ⟨hlen, ?_⟩
        intro j hj
        by_cases hjm : j < m
        · exact hread j hjm
        · obtain rfl : j = m := by omega
          rw [locAt_input g inputs j k hg, denoteAt_input g inputs j k hg]
          rfl
      | constant d =>
        rw [instrOf_const g inputs m d hg]
        refine ⟨hlen, ?_⟩
        intro j hj
        by_cases hjm : j < m
        · exact hread j hjm
        · obtain rfl : j = m := by omega
          rw [locAt_const g inputs j d hg, denoteAt_const g inputs j d hg]
          rfl
      | view b =>
        rw [instrOf_view g inputs m b hg]
        refine ⟨hlen, ?_⟩
        intro j hj
        by_cases hjm : j < m
        · exact hread j hjm
        · obtain rfl : j = m := by omega
          have hbase : baseV g j = some b := by
            unfold baseV
            rw [hg]
          have hblt : b < j := wfV_view g inputs hwf j b hmlt hg
          rw [locAt_congr g inputs j b
            (resolveV_viewstep g inputs hwf j b hbase),
            denoteAt_view g inputs j b hg hblt]
          exact hread b hblt
      | mul a b =>
        obtain ⟨ha, hb, hsz⟩ := wfV_mul g inputs hwf m a b hmlt hg
        rw [instrOf_mul g inputs m a b hg]
        have hexec : execChain inputs P [Instr.opMul (locAt g inputs a)
            (locAt g inputs b) (poolOff g inputs m) (sizeAt g inputs m)]
            = writeSlice P (poolOff g inputs m)
              (List.zipWith (· * ·) (readLoc inputs P (locAt g inputs a))
                (readLoc inputs P (locAt g inputs b))) := rfl
        rw [hexec, hread a (by omega), hread b (by omega)]
        have hv : List.zipWith (· * ·) (denoteAt g inputs a)
            (denoteAt g inputs b) = denoteAt g inputs m :=
          (denoteAt_mul g inputs m a b hg ha hb).symm
        rw [hv]
        have hvl : (denoteAt g inputs m).length = sizeAt g inputs m :=
          size_denote g inputs hwf m hmlt
        have hbound : poolOff g inputs m + sizeAt g inputs m
            ≤ poolSize g inputs :=
          mul_region_le g inputs m g.length a b hg hmlt
        have hplen : poolOff g inputs m + (denoteAt g inputs m).length
            ≤ P.length := by
          rw [hvl, hlen]
          exact hbound
        constructor
        · rw [writeSlice_length P _ _ hplen, hlen]
        · intro j hj
          by_cases hjm : j < m
          · have hprev := hread j hjm
            cases hl : locAt g inputs j with
            | inp k =>
              rw [hl] at hprev
              exact hprev
            | cst d =>
              rw [hl] at hprev
              exact hprev
            | pool off2 len2 =>
              rw [hl] at hprev
              obtain ⟨⟨a2, b2, hr2⟩, hoff2, hlen2⟩ :=
                locAt_pool_inv g inputs j off2 len2 hl
              have hrle : resolveV g j ≤ j := resolveV_le g inputs hwf j
              have hreg : off2 + len2 ≤ poolOff g inputs m := by
                rw [hoff2, hlen2]
                exact mul_region_le g inputs (resolveV g j) m a2 b2 hr2
                  (by omega)
              show ((writeSlice P _ _).drop off2).take len2 = _
              rw [read_write_below P _ _ off2 len2 hreg
                (by rw [hlen]; exact poolOff_mono g inputs m g.length hm2)]
              exact hprev
          · obtain rfl : j = m := by omega
            rw [locAt_mul g inputs j a b hg]
            show ((writeSlice P _ _).drop (poolOff g inputs j)).take
              (sizeAt g inputs j) = _
            rw [← hvl, read_write_at P _ _ hplen]

/-- C8 (modelled from the spec, §4.3 correctness invariant): for every
well-formed graph and input, executing the compiled instruction chain after
view elision and memory planning — reading the result at the output's
planned location — produces numeric output identical to evaluating the
original un-elided, un-planned graph on the same input. -/
theorem exec_refines (g : List VNode) (inputs : List (List Int)) (out : Nat)
    (hwf : wfV g inputs = true) (hout : out < g.length) :
    execOutput g inputs out = denoteAt g inputs out := by
  obtain ⟨-, h⟩ := exec_inv g inputs hwf g.length (le_refl _)
  exact h out hout

/-- C8 witness: the §8 scenario at concrete data — the compiled chain
computes exactly the direct evaluation. -/
theorem exec_refines_witness :
    execOutput (scenarioGraph [1, 2]) [[3, 4]] 5
      = denoteAt (scenarioGraph [1, 2]) [[3, 4]] 5 ∧
    denoteAt (scenarioGraph [1, 2]) [[3, 4]] 5 = [3, 8] :=
  ⟨exec_refines (scenarioGraph [1, 2]) [[3, 4]] 5 (by decide) (by decide),
   by decide⟩

end ExecM
